import Mathlib

/-!
Shallow embedding of the go-ChiiCgrep record-extraction pipeline
(`processFile` and its helpers in `src/mian.go`).

The program reads CSV files.  For each file it reads the header row, builds a
name-to-index map (a Go map built by forward iteration, so for duplicate header
names the last occurrence wins), resolves the user's requested columns and
highlight rules against that map, chooses a file tag from the first matching
FileTagRule, and then iterates the data rows: malformed rows are skipped with a
diagnostic, surviving rows are filtered by a literal substring search over the
cells, highlight indices are computed, and an HTML record block is rendered.

Strings are modelled by Lean `String`; substring search (`strings.Contains`)
is modelled character-by-character on `String.data`.  Per-row CSV parse faults
and file-level open/header failures are modelled by explicit constructors,
since the embedding does not model the byte-level CSV parser itself.
-/

deriving instance DecidableEq for Except

/-- Column specification from `-cols`: a column name plus its emphasis flag
(`ColumnSpec` in the source). -/
structure ColumnSpec where
  Name : String
  Emphasize : Bool
deriving DecidableEq

/-- Parsed `-highlight-if` condition (`highlightRule` in the source). -/
structure highlightRule where
  ColumnName : String
  ColumnValue : String
deriving DecidableEq

/-- Parsed `-tag-file` condition (`fileTagRule` in the source). -/
structure fileTagRule where
  TagName : String
  Keyword : String
deriving DecidableEq

/-- A highlight rule resolved against one file's header (`resolvedRule`,
local type inside `processFile`). -/
structure resolvedRule where
  Index : Nat
  Value : String
deriving DecidableEq

/-- A requested column resolved against one file's header (`targetColumn`,
local type inside `processFile`). -/
structure targetColumn where
  Name : String
  Index : Nat
  Emphasize : Bool
deriving DecidableEq

/-- Diagnostics emitted through `log.Printf` by `processFile` and the main
loop, abstracted to their identifying content. -/
inductive Diag where
  | ruleColMissing (column : String)
  | colMissing (column : String)
  | noColumns
  | parseError (lineNum : Nat)
  | fileError (path : String) (msg : String)
deriving DecidableEq

/-- Check that `t` is a prefix of `s`, character by character. -/
def startsWithL : List Char → List Char → Bool
  | _, [] => true
  | [], _ :: _ => false
  | c :: s, d :: t => c == d && startsWithL s t

/-- Check that `t` occurs contiguously inside `s`; model of Go
`strings.Contains(s, t)` on character lists. -/
def containsL : List Char → List Char → Bool
  | [], t => t.isEmpty
  | c :: s, t => startsWithL (c :: s) t || containsL s t

/-- Model of Go `strings.Contains(s, t)`: `t` occurs as a literal substring
of `s`. -/
def strContains (s t : String) : Bool :=
  containsL s.data t.data

/-- Escape one character the way Go `html.EscapeString` does: the five
characters `&`, single quote, `<`, `>`, `"` become entities. -/
def escapeChar (c : Char) : List Char :=
  if c = '&' then "&amp;".data
  else if c = Char.ofNat 39 then "&#39;".data
  else if c = '<' then "&lt;".data
  else if c = '>' then "&gt;".data
  else if c = '"' then "&#34;".data
  else [c]

/-- Model of Go `html.EscapeString`. -/
def htmlEscape (s : String) : String :=
  String.mk (s.data.map escapeChar).flatten

/-- Build the header map of `processFile` starting at position `i`.  The Go
code inserts `headerMap[h] = i` iterating forward, so a later duplicate
overwrites an earlier one; here an entry for a later header is placed in
front of (hence shadows, for `hdrLookup`, which takes the first hit) every
entry for an earlier header. -/
def buildHeaderMap : List String → Nat → List (String × Nat)
  | [], _ => []
  | h :: t, i => buildHeaderMap t (i + 1) ++ [(h, i)]

/-- The header map of one file (`headerMap` in `processFile`). -/
def headerMap (headers : List String) : List (String × Nat) :=
  buildHeaderMap headers 0

/-- Look a column name up in a header map (Go `headerMap[name]`, with `none`
for a missing key). -/
def hdrLookup (m : List (String × Nat)) (name : String) : Option Nat :=
  (m.find? fun p => p.1 == name).map fun p => p.2

/-- Resolve the highlight rules against a header map: kept rules in order,
plus a warning for each rule whose column is missing (first loop of
`processFile`). -/
def resolveRules (hm : List (String × Nat)) :
    List highlightRule → List resolvedRule × List Diag
  | [] => ([], [])
  | rule :: rest =>
    let r := resolveRules hm rest
    match hdrLookup hm rule.ColumnName with
    | some idx => (⟨idx, rule.ColumnValue⟩ :: r.1, r.2)
    | none => (r.1, Diag.ruleColMissing rule.ColumnName :: r.2)

/-- Resolve the requested columns against a header map: kept columns in
declaration order, plus a warning for each spec whose name is missing
(second loop of `processFile`). -/
def resolveColumns (hm : List (String × Nat)) :
    List ColumnSpec → List targetColumn × List Diag
  | [] => ([], [])
  | spec :: rest =>
    let r := resolveColumns hm rest
    match hdrLookup hm spec.Name with
    | some idx => (⟨spec.Name, idx, spec.Emphasize⟩ :: r.1, r.2)
    | none => (r.1, Diag.colMissing spec.Name :: r.2)

/-- Decide the tag class for a file path: the first `fileTagRule` whose
keyword occurs in the path wins, otherwise the class is empty (the
`fileTagClass` loop of `processFile`). -/
def fileTagClass : List fileTagRule → String → String
  | [], _ => ""
  | r :: rest, filePath =>
    if strContains filePath r.Keyword then " tag-" ++ htmlEscape r.TagName
    else fileTagClass rest filePath

/-- Row filter of `processFile`: with a non-empty search target the row
passes when some cell contains the target as a literal substring; an empty
target disables filtering. -/
def rowPasses (target : String) (record : List String) : Bool :=
  if target = "" then true
  else record.any fun cell => strContains cell target

/-- Mutable state of the highlight loop of `processFile`: the current row and
the set (as a list, membership only matters) of highlighted column indices. -/
structure RowState where
  record : List String
  highlighted : List Nat
deriving DecidableEq

/-- One iteration of the highlight loop: when the rule's index is in bounds
and the cell equals the rule's value, mark that index; otherwise do
nothing. -/
def applyRule (st : RowState) (r : resolvedRule) : RowState :=
  if h : r.Index < st.record.length then
    if st.record.get ⟨r.Index, h⟩ = r.Value then
      { st with highlighted := r.Index :: st.highlighted }
    else st
  else st

/-- The whole highlight loop over the resolved rules. -/
def annotate (st : RowState) (rrs : List resolvedRule) : RowState :=
  rrs.foldl applyRule st

/-- The `columnsToHighlight` map of `processFile`, as the list of marked
indices for one row. -/
def columnsToHighlight (rrs : List resolvedRule) (record : List String) : List Nat :=
  (annotate ⟨record, []⟩ rrs).highlighted

/-- CSS class of one rendered column entry: always `data-item`, plus
`emphasis` for an emphasized column, plus `highlight-value` when the
column's index is marked. -/
def className (col : targetColumn) (hi : List Nat) : String :=
  "data-item" ++ (if col.Emphasize then " emphasis" else "")
    ++ (if hi.contains col.Index then " highlight-value" else "")

/-- The `<p>` line rendered for one in-bounds column of one record. -/
def entryString (col : targetColumn) (hi : List Nat) (record : List String) : String :=
  "  <p class=\"" ++ className col hi ++ "\"><span class=\"header\">"
    ++ htmlEscape col.Name ++ ": </span><span class=\"value\">["
    ++ htmlEscape (record.getD col.Index "") ++ "]</span></p>\n"

/-- The rendering step for one column of one record: a line when the column's
index is within the row, nothing when the row is too short. -/
def entryLine (hi : List Nat) (record : List String) (col : targetColumn) :
    Option String :=
  if col.Index < record.length then some (entryString col hi record) else none

/-- One rendered record block (the `strings.Builder` part of the row loop of
`processFile`). -/
def renderRecord (filePath ftc : String) (lineNum : Nat)
    (cols : List targetColumn) (hi : List Nat) (record : List String) : String :=
  "<div class=\"record\">\n"
    ++ "  <p class=\"file-info" ++ ftc ++ "\">--- ファイル: "
    ++ htmlEscape filePath ++ ", 行: " ++ toString lineNum ++ " ---</p>\n"
    ++ String.join (cols.filterMap (entryLine hi record))
    ++ "</div>\n"

/-- One read attempt from the CSV reader inside the row loop: a parsed row,
or a recoverable per-row parse fault. -/
inductive RowIn where
  | ok (record : List String)
  | err
deriving DecidableEq

/-- The parsed row carried by a `RowIn`, when there is one. -/
def RowIn.record? : RowIn → Option (List String)
  | .ok r => some r
  | .err => none

/-- What reading one file can yield: the open call fails, the header read
fails with a non-EOF error, the source is empty (EOF on the header read), or
a header row followed by the data-row read results. -/
inductive FileContent where
  | openFail
  | headerFail
  | empty
  | data (headers : List String) (rows : List RowIn)
deriving DecidableEq

/-- The row loop of `processFile`: `lineNum` is the Go counter value before
the increment at the top of the iteration, so the first data row is line 2.
Returns the rendered blocks in order plus the per-row diagnostics. -/
def processRows (filePath target ftc : String) (cols : List targetColumn)
    (rrs : List resolvedRule) : Nat → List RowIn → List String × List Diag
  | _, [] => ([], [])
  | lineNum, RowIn.err :: rest =>
    let r := processRows filePath target ftc cols rrs (lineNum + 1) rest
    (r.1, Diag.parseError (lineNum + 1) :: r.2)
  | lineNum, RowIn.ok record :: rest =>
    if rowPasses target record then
      let r := processRows filePath target ftc cols rrs (lineNum + 1) rest
      (renderRecord filePath ftc (lineNum + 1) cols
          (columnsToHighlight rrs record) record :: r.1, r.2)
    else
      processRows filePath target ftc cols rrs (lineNum + 1) rest

/-- Model of `processFile`: an open or header-read failure is returned as an
error; an empty source returns at once with nothing; otherwise columns and
rules are resolved, a file with no resolved columns is skipped with a
diagnostic, and the row loop runs. -/
def processFile (filePath : String) (specs : List ColumnSpec) (target : String)
    (rules : List highlightRule) (tagRules : List fileTagRule) :
    FileContent → Except String (List String × List Diag)
  | FileContent.openFail => .error "ファイルを開けませんでした"
  | FileContent.headerFail => .error "ヘッダーの読み込みに失敗しました"
  | FileContent.empty => .ok ([], [])
  | FileContent.data headers rows =>
    let hm := headerMap headers
    let rr := resolveRules hm rules
    let tc := resolveColumns hm specs
    if tc.1.isEmpty then
      .ok ([], rr.2 ++ tc.2 ++ [Diag.noColumns])
    else
      let ftc := fileTagClass tagRules filePath
      let rows' := processRows filePath target ftc tc.1 rr.1 1 rows
      .ok (rows'.1, rr.2 ++ tc.2 ++ rows'.2)

/-- The per-file loop of `main`: files are processed in order, block streams
are concatenated, and a file whose processing returns an error is reported
and skipped. -/
def runFiles (specs : List ColumnSpec) (target : String)
    (rules : List highlightRule) (tagRules : List fileTagRule) :
    List (String × FileContent) → List String × List Diag
  | [] => ([], [])
  | pf :: rest =>
    let r := runFiles specs target rules tagRules rest
    match processFile pf.1 specs target rules tagRules pf.2 with
    | .ok br => (br.1 ++ r.1, br.2 ++ r.2)
    | .error e => (r.1, Diag.fileError pf.1 e :: r.2)

/-- Modelled from the spec sentence of claim C4: "the number of rows that
pass RowFilter, summed over all successfully opened files".  A file is
successfully opened in every case except a failing open call; the rows of a
file are its well-formed parsed records, to which RowFilter applies. -/
def specPassingRowTotal (target : String)
    (files : List (String × FileContent)) : Nat :=
  (files.map fun pf =>
    match pf.2 with
    | FileContent.data _ rows =>
      (rows.filterMap RowIn.record?).countP (rowPasses target)
    | _ => 0).sum

/-! ### Helper lemmas -/

theorem startsWithL_iff (t s : List Char) : startsWithL s t = true ↔ t <+: s := by
  induction t generalizing s with
  | nil => cases s <;> simp [startsWithL]
  | cons d t ih =>
    cases s with
    | nil => simp [startsWithL]
    | cons c s =>
      rw [show startsWithL (c :: s) (d :: t) = (c == d && startsWithL s t) from rfl]
      rw [Bool.and_eq_true, beq_iff_eq, ih, List.cons_prefix_cons]
      exact and_congr_left' eq_comm

theorem containsL_iff (t s : List Char) : containsL s t = true ↔ t <:+: s := by
  induction s with
  | nil => cases t <;> simp [containsL]
  | cons c s ih =>
    simp [containsL, List.infix_cons_iff, startsWithL_iff, ih]

theorem strContains_iff (s t : String) :
    strContains s t = true ↔ t.data <:+: s.data := by
  simp [strContains, containsL_iff]

theorem hdrLookup_append (m₁ m₂ : List (String × Nat)) (name : String) :
    hdrLookup (m₁ ++ m₂) name = (hdrLookup m₁ name).or (hdrLookup m₂ name) := by
  unfold hdrLookup
  rw [List.find?_append]
  cases m₁.find? fun p => p.1 == name <;> simp

theorem hdrLookup_buildHeaderMap_isSome (hs : List String) (i : Nat) (name : String) :
    (hdrLookup (buildHeaderMap hs i) name).isSome ↔ name ∈ hs := by
  induction hs generalizing i with
  | nil => simp [buildHeaderMap, hdrLookup]
  | cons h t ih =>
    rw [buildHeaderMap, hdrLookup_append]
    simp only [Option.isSome_or, Bool.or_eq_true, ih, List.mem_cons]
    constructor
    · rintro (hmem | hone)
      · exact Or.inr hmem
      · left
        simp [hdrLookup, List.find?] at hone
        split at hone
        · next heq => exact (beq_iff_eq.mp heq).symm
        · simp at hone
    · rintro (rfl | hmem)
      · right
        simp [hdrLookup, List.find?]
      · exact Or.inl hmem

theorem hdrLookup_buildHeaderMap_eq_some (hs : List String) (i j : Nat) (name : String)
    (hj : hdrLookup (buildHeaderMap hs i) name = some j) :
    ∃ k, j = i + k ∧ hs[k]? = some name := by
  induction hs generalizing i with
  | nil => simp [buildHeaderMap, hdrLookup] at hj
  | cons h t ih =>
    rw [buildHeaderMap, hdrLookup_append] at hj
    cases hcase : hdrLookup (buildHeaderMap t (i + 1)) name with
    | some j' =>
      rw [hcase] at hj
      simp only [Option.or_some, Option.some.injEq] at hj
      obtain ⟨k, hk, hget⟩ := ih (i + 1) (hj ▸ hcase)
      exact ⟨k + 1, by omega, by simpa using hget⟩
    | none =>
      rw [hcase, Option.none_or] at hj
      simp only [hdrLookup, List.find?] at hj
      split at hj
      · next heq =>
        simp at hj
        exact ⟨0, by omega, by simp [beq_iff_eq.mp heq]⟩
      · simp at hj

theorem hdrLookup_headerMap_isSome (headers : List String) (name : String) :
    (hdrLookup (headerMap headers) name).isSome = decide (name ∈ headers) := by
  rw [headerMap]
  by_cases h : name ∈ headers
  · rw [decide_eq_true h]
    exact (hdrLookup_buildHeaderMap_isSome headers 0 name).mpr h
  · rw [decide_eq_false h]
    simpa using fun hyp => h ((hdrLookup_buildHeaderMap_isSome headers 0 name).mp hyp)

theorem hdrLookup_headerMap_getElem (headers : List String) (name : String) (j : Nat)
    (hj : hdrLookup (headerMap headers) name = some j) :
    headers[j]? = some name := by
  obtain ⟨k, hk, hget⟩ := hdrLookup_buildHeaderMap_eq_some headers 0 j name hj
  simpa [hk] using hget

theorem resolveColumns_fst_map (hm : List (String × Nat)) (specs : List ColumnSpec) :
    (resolveColumns hm specs).1.map (fun c => (c.Name, c.Emphasize))
      = (specs.filter fun s => (hdrLookup hm s.Name).isSome).map
          fun s => (s.Name, s.Emphasize) := by
  induction specs with
  | nil => simp [resolveColumns]
  | cons spec rest ih =>
    rw [resolveColumns, List.filter_cons]
    cases hcase : hdrLookup hm spec.Name with
    | some idx => simp [hcase, ih]
    | none => simp [hcase, ih]

theorem resolveColumns_snd_map (hm : List (String × Nat)) (specs : List ColumnSpec) :
    (resolveColumns hm specs).2
      = (specs.filter fun s => !(hdrLookup hm s.Name).isSome).map
          fun s => Diag.colMissing s.Name := by
  induction specs with
  | nil => simp [resolveColumns]
  | cons spec rest ih =>
    rw [resolveColumns, List.filter_cons]
    cases hcase : hdrLookup hm spec.Name with
    | some idx => simp [hcase, ih]
    | none => simp [hcase, ih]

theorem mem_resolveColumns (hm : List (String × Nat)) (specs : List ColumnSpec)
    (c : targetColumn) :
    c ∈ (resolveColumns hm specs).1 ↔
      ∃ s ∈ specs, hdrLookup hm s.Name = some c.Index ∧ c.Name = s.Name
        ∧ c.Emphasize = s.Emphasize := by
  induction specs with
  | nil => simp [resolveColumns]
  | cons spec rest ih =>
    rw [resolveColumns]
    cases hcase : hdrLookup hm spec.Name with
    | some idx =>
      simp only [List.mem_cons, ih, exists_eq_or_imp, hcase]
      constructor
      · rintro (rfl | h)
        · exact Or.inl ⟨rfl, rfl, rfl⟩
        · exact Or.inr h
      · rintro (⟨hidx, hn, he⟩ | h)
        · obtain ⟨N, I, E⟩ := c
          simp only at hidx hn he
          subst hn
          subst he
          simp only [Option.some.injEq] at hidx
          subst hidx
          exact Or.inl rfl
        · exact Or.inr h
    | none =>
      simp only [ih, List.mem_cons, exists_eq_or_imp, hcase]
      constructor
      · exact fun h => Or.inr h
      · rintro (⟨h, -⟩ | h)
        · cases h
        · exact h

theorem mem_resolveRules (hm : List (String × Nat)) (rules : List highlightRule)
    (r : resolvedRule) :
    r ∈ (resolveRules hm rules).1 ↔
      ∃ rule ∈ rules, hdrLookup hm rule.ColumnName = some r.Index
        ∧ r.Value = rule.ColumnValue := by
  induction rules with
  | nil => simp [resolveRules]
  | cons rule rest ih =>
    rw [resolveRules]
    cases hcase : hdrLookup hm rule.ColumnName with
    | some idx =>
      simp only [List.mem_cons, ih, exists_eq_or_imp, hcase]
      constructor
      · rintro (rfl | h)
        · exact Or.inl ⟨rfl, rfl⟩
        · exact Or.inr h
      · rintro (⟨hidx, hv⟩ | h)
        · obtain ⟨I, V⟩ := r
          simp only at hidx hv
          subst hv
          simp only [Option.some.injEq] at hidx
          subst hidx
          exact Or.inl rfl
        · exact Or.inr h
    | none =>
      simp only [ih, List.mem_cons, exists_eq_or_imp, hcase]
      constructor
      · exact fun h => Or.inr h
      · rintro (⟨h, -⟩ | h)
        · cases h
        · exact h

theorem applyRule_record (st : RowState) (r : resolvedRule) :
    (applyRule st r).record = st.record := by
  unfold applyRule
  split
  · split <;> rfl
  · rfl

theorem mem_applyRule (st : RowState) (r : resolvedRule) (i : Nat) :
    i ∈ (applyRule st r).highlighted ↔
      i ∈ st.highlighted ∨ (r.Index = i ∧ st.record[i]? = some r.Value) := by
  unfold applyRule
  split
  · next h =>
    by_cases heq : st.record.get ⟨r.Index, h⟩ = r.Value
    · rw [if_pos heq]
      simp only [List.mem_cons]
      constructor
      · rintro (rfl | hmem)
        · refine Or.inr ⟨rfl, ?_⟩
          rw [List.getElem?_eq_getElem h]
          rw [List.get_eq_getElem] at heq
          rw [heq]
        · exact Or.inl hmem
      · rintro (hmem | ⟨rfl, hcell⟩)
        · exact Or.inr hmem
        · exact Or.inl rfl
    · rw [if_neg heq]
      constructor
      · exact Or.inl
      · rintro (hmem | ⟨rfl, hcell⟩)
        · exact hmem
        · exfalso
          apply heq
          rw [List.get_eq_getElem]
          rw [List.getElem?_eq_getElem h] at hcell
          exact Option.some.inj hcell
  · next h =>
    constructor
    · exact Or.inl
    · rintro (hmem | ⟨rfl, hcell⟩)
      · exact hmem
      · exfalso
        rw [List.getElem?_eq_none (Nat.not_lt.mp h)] at hcell
        cases hcell

theorem annotate_record (st : RowState) (rrs : List resolvedRule) :
    (annotate st rrs).record = st.record := by
  induction rrs generalizing st with
  | nil => rfl
  | cons r rs ih =>
    rw [annotate, List.foldl_cons,
      show List.foldl applyRule (applyRule st r) rs = annotate (applyRule st r) rs
        from rfl,
      ih, applyRule_record]

theorem mem_annotate (rrs : List resolvedRule) (st : RowState) (i : Nat) :
    i ∈ (annotate st rrs).highlighted ↔
      i ∈ st.highlighted ∨ ∃ r ∈ rrs, r.Index = i ∧ st.record[i]? = some r.Value := by
  induction rrs generalizing st with
  | nil => simp [annotate]
  | cons r rs ih =>
    rw [annotate, List.foldl_cons,
      show List.foldl applyRule (applyRule st r) rs = annotate (applyRule st r) rs
        from rfl,
      ih, mem_applyRule, applyRule_record]
    simp only [List.mem_cons, exists_eq_or_imp]
    tauto

theorem processRows_length (fp target ftc : String) (cols : List targetColumn)
    (rrs : List resolvedRule) (rows : List RowIn) (n : Nat) :
    (processRows fp target ftc cols rrs n rows).1.length
      = (rows.filterMap RowIn.record?).countP (rowPasses target) := by
  induction rows generalizing n with
  | nil => simp [processRows]
  | cons row rest ih =>
    cases row with
    | err => simpa [processRows, RowIn.record?] using ih (n + 1)
    | ok record =>
      by_cases h : rowPasses target record = true
      · simp [processRows, RowIn.record?, h, ih (n + 1), List.countP_cons]
      · simp [processRows, RowIn.record?, h, ih (n + 1), List.countP_cons]

theorem processRows_blocks (fp target ftc : String) (cols : List targetColumn)
    (rrs : List resolvedRule) (rows : List RowIn) (n : Nat) :
    ∀ b ∈ (processRows fp target ftc cols rrs n rows).1,
      ∃ ln record, rowPasses target record = true ∧
        b = renderRecord fp ftc ln cols (columnsToHighlight rrs record) record := by
  induction rows generalizing n with
  | nil => simp [processRows]
  | cons row rest ih =>
    cases row with
    | err =>
      intro b hb
      exact ih (n + 1) b (by simpa [processRows] using hb)
    | ok record =>
      by_cases h : rowPasses target record = true
      · intro b hb
        simp only [processRows, h, if_true] at hb
        rcases List.mem_cons.mp hb with rfl | hb'
        · exact ⟨n + 1, record, h, rfl⟩
        · exact ih (n + 1) b hb'
      · intro b hb
        simp only [processRows, h, if_false] at hb
        exact ih (n + 1) b hb

theorem processRows_diags (fp target ftc : String) (cols : List targetColumn)
    (rrs : List resolvedRule) (rows : List RowIn) (n : Nat) :
    ∀ d ∈ (processRows fp target ftc cols rrs n rows).2,
      ∃ ln, d = Diag.parseError ln := by
  induction rows generalizing n with
  | nil => simp [processRows]
  | cons row rest ih =>
    cases row with
    | err =>
      intro d hd
      simp only [processRows] at hd
      rcases List.mem_cons.mp hd with rfl | hd'
      · exact ⟨n + 1, rfl⟩
      · exact ih (n + 1) d hd'
    | ok record =>
      by_cases h : rowPasses target record = true
      · intro d hd
        simp only [processRows, h, if_true] at hd
        exact ih (n + 1) d hd
      · intro d hd
        simp only [processRows, h, if_false] at hd
        exact ih (n + 1) d hd

theorem filterMap_entryLine (cols : List targetColumn) (hi : List Nat)
    (record : List String) :
    cols.filterMap (entryLine hi record)
      = (cols.filter fun c => decide (c.Index < record.length)).map
          fun c => entryString c hi record := by
  induction cols with
  | nil => rfl
  | cons c cs ih =>
    by_cases h : c.Index < record.length
    · simp [entryLine, h, ih, List.filter_cons, List.filterMap_cons]
    · simp [entryLine, h, ih, List.filter_cons, List.filterMap_cons]

theorem tagClass_ne_empty (s : String) : " tag-" ++ s ≠ "" := by
  intro h
  have h2 := congrArg String.length h
  rw [String.length_append] at h2
  have h3 : (" tag-" : String).length = 5 := rfl
  have h4 : ("" : String).length = 0 := rfl
  omega

theorem fileTagClass_ne_empty_iff (tagRules : List fileTagRule) (fp : String) :
    fileTagClass tagRules fp ≠ "" ↔ ∃ r ∈ tagRules, r.Keyword.data <:+: fp.data := by
  induction tagRules with
  | nil => simp [fileTagClass]
  | cons r rest ih =>
    rw [fileTagClass]
    by_cases h : strContains fp r.Keyword = true
    · rw [if_pos h]
      simp only [List.mem_cons, exists_eq_or_imp]
      exact ⟨fun _ => Or.inl ((strContains_iff fp r.Keyword).mp h),
        fun _ => tagClass_ne_empty _⟩
    · rw [if_neg h]
      simp only [List.mem_cons, exists_eq_or_imp, ih]
      have hni : ¬ (r.Keyword.data <:+: fp.data) :=
        fun hc => h ((strContains_iff fp r.Keyword).mpr hc)
      tauto

theorem fileTagClass_append (pre rest : List fileTagRule) (fp : String)
    (h : ∀ p ∈ pre, strContains fp p.Keyword = false) :
    fileTagClass (pre ++ rest) fp = fileTagClass rest fp := by
  induction pre with
  | nil => rfl
  | cons p ps ih =>
    have hp : strContains fp p.Keyword = false := h p (List.mem_cons_self p ps)
    rw [List.cons_append, fileTagClass, if_neg (by simp [hp])]
    exact ih fun q hq => h q (List.mem_cons_of_mem p hq)

theorem processFile_blockCount (fp : String) (specs : List ColumnSpec)
    (target : String) (rules : List highlightRule) (tagRules : List fileTagRule)
    (fc : FileContent) :
    (match processFile fp specs target rules tagRules fc with
      | .ok br => br.1.length
      | .error _ => 0)
      = match fc with
        | FileContent.data headers rows =>
          if (resolveColumns (headerMap headers) specs).1.isEmpty then 0
          else (rows.filterMap RowIn.record?).countP (rowPasses target)
        | _ => 0 := by
  cases fc with
  | openFail => rfl
  | headerFail => rfl
  | empty => rfl
  | data headers rows =>
    simp only [processFile]
    by_cases h : (resolveColumns (headerMap headers) specs).1.isEmpty = true
    · simp [h]
    · simp [h, processRows_length]

theorem runFiles_blockCount (specs : List ColumnSpec) (target : String)
    (rules : List highlightRule) (tagRules : List fileTagRule)
    (files : List (String × FileContent)) :
    (runFiles specs target rules tagRules files).1.length
      = (files.map fun pf =>
          match pf.2 with
          | FileContent.data headers rows =>
            if (resolveColumns (headerMap headers) specs).1.isEmpty then 0
            else (rows.filterMap RowIn.record?).countP (rowPasses target)
          | _ => 0).sum := by
  induction files with
  | nil => rfl
  | cons pf rest ih =>
    have hc := processFile_blockCount pf.1 specs target rules tagRules pf.2
    rw [runFiles]
    cases hpf : processFile pf.1 specs target rules tagRules pf.2 with
    | ok br =>
      rw [hpf] at hc
      simp only [List.map_cons, List.sum_cons, ← hc, List.length_append, ih]
    | error e =>
      rw [hpf] at hc
      simp only [List.map_cons, List.sum_cons, ← hc, ih, Nat.zero_add]

/-! ### Claim theorems -/

/-- C1: a row passes the filter if and only if the search target is the empty
string (filtering disabled) or the target occurs as a literal, case-sensitive
substring of at least one cell's raw text; no regex or normalization. -/
theorem rowFilter_passes_iff (target : String) (record : List String) :
    rowPasses target record = true ↔
      target = "" ∨ ∃ cell ∈ record, target.data <:+: cell.data := by
  rw [rowPasses]
  by_cases h : target = ""
  · simp [h]
  · rw [if_neg h, List.any_eq_true]
    constructor
    · rintro ⟨cell, hc, hs⟩
      exact Or.inr ⟨cell, hc, (strContains_iff cell target).mp hs⟩
    · rintro (heq | ⟨cell, hc, hs⟩)
      · exact absurd heq h
      · exact ⟨cell, hc, (strContains_iff cell target).mpr hs⟩

/-- C2: for a given file's headers and a row, a column index is marked by the
highlight engine exactly when some declared rule resolves to that index in
this file and the row's cell at that index equals the rule's expected value
(exact string equality); no other index is ever marked, and with several
rules on one column any single match marks it. -/
theorem highlight_marks_iff (rules : List highlightRule) (headers record : List String)
    (i : Nat) :
    i ∈ columnsToHighlight (resolveRules (headerMap headers) rules).1 record ↔
      ∃ rule ∈ rules, hdrLookup (headerMap headers) rule.ColumnName = some i ∧
        record[i]? = some rule.ColumnValue := by
  rw [columnsToHighlight, mem_annotate]
  simp only [List.not_mem_nil, false_or]
  constructor
  · rintro ⟨r, hr, rfl, hcell⟩
    obtain ⟨rule, hrule, hlook, hval⟩ :=
      (mem_resolveRules _ rules r).mp hr
    refine ⟨rule, hrule, hlook, ?_⟩
    rw [← hval]
    exact hcell
  · rintro ⟨rule, hrule, hlook, hcell⟩
    refine ⟨⟨i, rule.ColumnValue⟩, ?_, rfl, hcell⟩
    exact (mem_resolveRules _ rules ⟨i, rule.ColumnValue⟩).mpr ⟨rule, hrule, hlook, rfl⟩

/-- C3: a tag is applied to a file exactly when some rule's keyword occurs in
the file's path; the first declared matching rule determines the (single)
tag class; and every record block emitted for the file carries that same tag
class in its file-info line. -/
theorem fileTag_spec (tagRules : List fileTagRule) (filePath : String) :
    (fileTagClass tagRules filePath ≠ "" ↔
        ∃ r ∈ tagRules, r.Keyword.data <:+: filePath.data)
    ∧ (∀ pre r post, tagRules = pre ++ r :: post →
        (∀ p ∈ pre, ¬ (p.Keyword.data <:+: filePath.data)) →
        r.Keyword.data <:+: filePath.data →
        fileTagClass tagRules filePath = " tag-" ++ htmlEscape r.TagName)
    ∧ (∀ specs target rules headers rows blocks diags,
        processFile filePath specs target rules tagRules
            (FileContent.data headers rows) = .ok (blocks, diags) →
        ∀ b ∈ blocks, ∃ ln record,
          b = renderRecord filePath (fileTagClass tagRules filePath) ln
              (resolveColumns (headerMap headers) specs).1
              (columnsToHighlight
                (resolveRules (headerMap headers) rules).1 record) record) := by
  refine ⟨fileTagClass_ne_empty_iff tagRules filePath, ?_, ?_⟩
  · intro pre r post hdecomp hpre hr
    subst hdecomp
    rw [fileTagClass_append pre (r :: post) filePath (fun p hp => by
      cases hcb : strContains filePath p.Keyword
      · rfl
      · exact absurd ((strContains_iff _ _).mp hcb) (hpre p hp))]
    rw [fileTagClass, if_pos ((strContains_iff _ _).mpr hr)]
  · intro specs target rules headers rows blocks diags hpf b hb
    simp only [processFile] at hpf
    by_cases hempty : (resolveColumns (headerMap headers) specs).1.isEmpty = true
    · rw [if_pos hempty] at hpf
      injection hpf with hpair
      injection hpair with hblocks hdiags
      subst hblocks
      exact absurd hb (List.not_mem_nil b)
    · rw [if_neg hempty] at hpf
      injection hpf with hpair
      injection hpair with hblocks hdiags
      subst hblocks
      obtain ⟨ln, record, -, hbr⟩ :=
        processRows_blocks filePath target (fileTagClass tagRules filePath)
          (resolveColumns (headerMap headers) specs).1
          (resolveRules (headerMap headers) rules).1 rows 1 b hb
      exact ⟨ln, record, hbr⟩

/-- C3 witness: with the single rule `important:final`, a path containing
`final` gets exactly the class of that first matching rule. -/
theorem fileTag_spec_witness :
    fileTagClass [⟨"important", "final"⟩] "data/final_report.csv"
      = " tag-important" := by
  have h := (fileTag_spec [⟨"important", "final"⟩] "data/final_report.csv").2.1
    [] ⟨"important", "final"⟩ [] rfl (by simp) (by decide)
  rw [h]
  rfl

/-- C4 counterexample: one file opens fine, its single well-formed row passes
the (disabled) filter, but none of the requested columns resolve, so the file
is skipped and zero record blocks are emitted while one row passed RowFilter:
the claimed equality fails as stated. -/
theorem emittedCount_claim_ce :
    ¬ ((runFiles [⟨"B", false⟩] "" [] []
          [("f.csv", FileContent.data ["A"] [RowIn.ok ["x"]])]).1.length
        = specPassingRowTotal ""
            [("f.csv", FileContent.data ["A"] [RowIn.ok ["x"]])]) := by
  decide

/-- C4 (amended): the number of emitted record blocks equals the number of
well-formed rows that pass RowFilter, summed over all successfully opened
files in which at least one requested column resolves (a file whose resolved
column list is empty is skipped whole and contributes no blocks). -/
theorem emittedCount_amended (specs : List ColumnSpec) (target : String)
    (rules : List highlightRule) (tagRules : List fileTagRule)
    (files : List (String × FileContent)) :
    (runFiles specs target rules tagRules files).1.length
      = (files.map fun pf =>
          match pf.2 with
          | FileContent.data headers rows =>
            if (resolveColumns (headerMap headers) specs).1.isEmpty then 0
            else (rows.filterMap RowIn.record?).countP (rowPasses target)
          | _ => 0).sum :=
  runFiles_blockCount specs target rules tagRules files

/-- C5: column resolution keeps exactly the specs whose name occurs in the
headers (case-sensitive exact match), in declaration order; each resolved
index really points at that header name; every unmatched spec yields one
non-fatal missing-column diagnostic; and when nothing resolves the whole
file is skipped with no record output and a no-matching-columns
diagnostic. -/
theorem columnResolution_spec (specs : List ColumnSpec) (headers : List String) :
    ((resolveColumns (headerMap headers) specs).1.map fun c => (c.Name, c.Emphasize))
        = ((specs.filter fun s => decide (s.Name ∈ headers)).map
            fun s => (s.Name, s.Emphasize))
    ∧ (∀ c ∈ (resolveColumns (headerMap headers) specs).1,
        headers[c.Index]? = some c.Name)
    ∧ ((resolveColumns (headerMap headers) specs).2
        = (specs.filter fun s => !decide (s.Name ∈ headers)).map
            fun s => Diag.colMissing s.Name)
    ∧ (∀ filePath target rules tagRules rows,
        (resolveColumns (headerMap headers) specs).1 = [] →
        processFile filePath specs target rules tagRules
            (FileContent.data headers rows)
          = .ok ([], (resolveRules (headerMap headers) rules).2
              ++ (resolveColumns (headerMap headers) specs).2
              ++ [Diag.noColumns])) := by
  refine ⟨?_, ?_, ?_, ?_⟩
  · rw [resolveColumns_fst_map]
    congr 1
    apply List.filter_congr
    intro s _
    rw [hdrLookup_headerMap_isSome]
  · intro c hc
    obtain ⟨s, hs, hlook, hname, -⟩ := (mem_resolveColumns _ specs c).mp hc
    rw [hname]
    exact hdrLookup_headerMap_getElem headers s.Name c.Index hlook
  · rw [resolveColumns_snd_map]
    congr 1
    apply List.filter_congr
    intro s _
    rw [hdrLookup_headerMap_isSome]
  · intro filePath target rules tagRules rows hempty
    simp only [processFile]
    rw [if_pos (by rw [hempty]; rfl)]

/-- C5 witness: a resolved column's index points at its header, and a file
in which no requested column resolves is skipped with exactly the missing
column diagnostic and the no-matching-columns diagnostic. -/
theorem columnResolution_spec_witness :
    (["A", "B"] : List String)[1]? = some "B" ∧
    processFile "f.csv" [⟨"C", false⟩] "" [] [] (FileContent.data ["A"] [])
      = .ok ([], [Diag.colMissing "C", Diag.noColumns]) := by
  constructor
  · exact (columnResolution_spec [⟨"B", true⟩] ["A", "B"]).2.1 ⟨"B", 1, true⟩ (by decide)
  · have h := (columnResolution_spec [⟨"C", false⟩] ["A"]).2.2.2 "f.csv" "" [] [] []
      (by decide)
    rw [h]
    rfl

/-- C6: rendered column entries follow ColumnSpec declaration order (the
resolved names are a sublist of the declared names, and the record body maps
the resolved columns in that order), and the resolved name sequence does not
depend on the order of the header row, hence is the same across files whose
headers are permutations of each other. -/
theorem columnOrder_spec (specs : List ColumnSpec) (headers headers2 record : List String)
    (hi : List Nat) :
    (((resolveColumns (headerMap headers) specs).1.map fun c => c.Name).Sublist
        (specs.map fun s => s.Name))
    ∧ ((resolveColumns (headerMap headers) specs).1.filterMap (entryLine hi record)
        = ((resolveColumns (headerMap headers) specs).1.filter
              fun c => decide (c.Index < record.length)).map
            fun c => entryString c hi record)
    ∧ (headers.Perm headers2 →
        ((resolveColumns (headerMap headers) specs).1.map fun c => (c.Name, c.Emphasize))
          = ((resolveColumns (headerMap headers2) specs).1.map
              fun c => (c.Name, c.Emphasize))) := by
  refine ⟨?_, filterMap_entryLine _ hi record, ?_⟩
  · have h1 := resolveColumns_fst_map (headerMap headers) specs
    have h2 : ((resolveColumns (headerMap headers) specs).1.map fun c => c.Name)
        = ((specs.filter fun s => (hdrLookup (headerMap headers) s.Name).isSome).map
            fun s => s.Name) := by
      have h3 := congrArg (List.map Prod.fst) h1
      simpa [List.map_map, Function.comp] using h3
    rw [h2]
    exact List.Sublist.map _ (List.filter_sublist _)
  · intro hperm
    rw [resolveColumns_fst_map, resolveColumns_fst_map]
    congr 1
    apply List.filter_congr
    intro s _
    rw [hdrLookup_headerMap_isSome, hdrLookup_headerMap_isSome]
    exact decide_eq_decide.mpr hperm.mem_iff

/-- C6 witness: with the headers permuted, the same specs resolve to the same
name sequence, still in declaration order. -/
theorem columnOrder_spec_witness :
    ((resolveColumns (headerMap ["A", "B"]) [⟨"B", false⟩, ⟨"A", false⟩]).1.map
        fun c => (c.Name, c.Emphasize))
      = ((resolveColumns (headerMap ["B", "A"]) [⟨"B", false⟩, ⟨"A", false⟩]).1.map
          fun c => (c.Name, c.Emphasize)) :=
  (columnOrder_spec [⟨"B", false⟩, ⟨"A", false⟩] ["A", "B"] ["B", "A"] [] []).2.2
    (by decide)

/-- C7: a resolved column whose index is not less than the row's length
renders nothing for that record (the entry is omitted), the remaining
in-bounds columns are still rendered in order, and the row loop emits only
parse-error diagnostics — never one about a short row. -/
theorem shortRow_spec (cols : List targetColumn) (hi : List Nat) (record : List String) :
    (∀ c ∈ cols, record.length ≤ c.Index → entryLine hi record c = none)
    ∧ (cols.filterMap (entryLine hi record)
        = (cols.filter fun c => decide (c.Index < record.length)).map
            fun c => entryString c hi record)
    ∧ (∀ fp target ftc rrs n rows,
        ∀ d ∈ (processRows fp target ftc cols rrs n rows).2,
          ∃ ln, d = Diag.parseError ln) := by
  refine ⟨?_, filterMap_entryLine cols hi record, ?_⟩
  · intro c _ hle
    rw [entryLine, if_neg (Nat.not_lt.mpr hle)]
  · intro fp target ftc rrs n rows d hd
    exact processRows_diags fp target ftc cols rrs rows n d hd

/-- C7 witness: a column resolved at index 5 against a one-cell row is
omitted, and the only diagnostic the row loop produces for a malformed row
is a parse error for its line. -/
theorem shortRow_spec_witness :
    entryLine [] ["x"] ⟨"A", 5, false⟩ = none ∧
    (∃ ln, Diag.parseError 2 = Diag.parseError ln) := by
  constructor
  · exact (shortRow_spec [⟨"A", 5, false⟩] [] ["x"]).1 ⟨"A", 5, false⟩ (by decide)
      (by decide)
  · exact (shortRow_spec [⟨"A", 5, false⟩] [] ["x"]).2.2 "f" "" "" [] 1 [RowIn.err]
      (Diag.parseError 2) (by decide)

/-- C8: an empty source (EOF on the header read) makes `processFile` return
at once without error, no output and no diagnostic; this is a separate path
from an ordinary clean end of input after a header, which still runs column
resolution (shown by a concrete separating input). -/
theorem emptySource_spec (fp : String) (specs : List ColumnSpec) (target : String)
    (rules : List highlightRule) (tagRules : List fileTagRule) :
    processFile fp specs target rules tagRules FileContent.empty = .ok ([], [])
    ∧ processFile "f.csv" [⟨"B", false⟩] "" [] [] (FileContent.data ["A"] [])
        ≠ processFile "f.csv" [⟨"B", false⟩] "" [] [] FileContent.empty :=
  ⟨rfl, by decide⟩

/-- C9: the highlight loop never mutates the row: after folding any list of
resolved rules over any state, the record component is unchanged — only the
highlighted-index annotation is written. -/
theorem highlightFrame_spec (st : RowState) (rrs : List resolvedRule) :
    (annotate st rrs).record = st.record :=
  annotate_record st rrs

/-- C10: highlight evaluation is guarded before indexing: a rule whose index
is not less than the row's length leaves the state untouched, and every
marked index is strictly below the row's length. -/
theorem highlightBounds_spec (rrs : List resolvedRule) (record : List String)
    (st : RowState) (r : resolvedRule) :
    (st.record.length ≤ r.Index → applyRule st r = st)
    ∧ (∀ i ∈ columnsToHighlight rrs record, i < record.length) := by
  constructor
  · intro hle
    unfold applyRule
    rw [dif_neg (Nat.not_lt.mpr hle)]
  · intro i hi
    rw [columnsToHighlight, mem_annotate] at hi
    rcases hi with h | ⟨r', hr', rfl, hcell⟩
    · exact absurd h (List.not_mem_nil i)
    · exact (List.getElem?_eq_some_iff.mp hcell).1

/-- C10 witness: an out-of-bounds rule is a no-op on a concrete state, and
the one marked index of a concrete row is in bounds. -/
theorem highlightBounds_spec_witness :
    applyRule ⟨["a"], []⟩ ⟨3, "v"⟩ = ⟨["a"], []⟩ ∧ (0 : Nat) < 1 :=
  ⟨(highlightBounds_spec [⟨0, "a"⟩] ["a"] ⟨["a"], []⟩ ⟨3, "v"⟩).1 (by decide),
   (highlightBounds_spec [⟨0, "a"⟩] ["a"] ⟨["a"], []⟩ ⟨3, "v"⟩).2 0 (by decide)⟩
